import Mathlib

/-!
# Verification of the `wordle-solver` repository (`src/main.rs`)

Shallow embedding of the Rust program. Words are modelled as `List Char`
(Rust `String` iterated via `chars()`), `Vec` as `List`. Every Rust
expression that can panic (`Option::unwrap`, indexing, integer underflow in
debug builds) is modelled explicitly: fallible operations return `Option`,
and the two loops return result types with distinguished panic outcomes.
The `u64` counter of `parse_words` is modelled as a `Nat` reduced modulo
`2 ^ 64` at the subtraction, matching Rust release-mode wrap-around.
-/

set_option autoImplicit false

namespace WordleSolver

/-- Embeds the Rust struct `Hint { letter: char, position: usize, kind: char }`. -/
structure Hint where
  letter : Char
  position : Nat
  kind : Char
deriving DecidableEq, Repr

/-- Embeds `is_winner`: true iff every hint's kind is `'g'`. -/
def is_winner (hints : List Hint) : Bool :=
  hints.all (fun h => h.kind == 'g')

/-- Loop body of `get_hints`: iterates over the guess characters with a running
position. `target.chars().nth(pos).unwrap()` is evaluated only when
`target.contains(c)`; an out-of-range access there panics (`none`). -/
def get_hintsAux (target : List Char) : List Char → Nat → Option (List Hint)
  | [], _ => some []
  | c :: cs, pos =>
    let kind? : Option Char :=
      if target.contains c then
        match target[pos]? with
        | some t => some (if t == c then 'g' else 'y')
        | none => none
      else
        some 'b'
    match kind? with
    | none => none
    | some k => (get_hintsAux target cs (pos + 1)).map (fun hs => ⟨c, pos, k⟩ :: hs)

/-- Embeds `get_hints(guess, target)`. -/
def get_hints (guess target : List Char) : Option (List Hint) :=
  get_hintsAux target guess 0

/-- Inner loop of `narrow_guesses`: checks one word against every hint, in hint
order, stopping at the first rejection. `word.chars().nth(hint.position).unwrap()`
is evaluated for `'g'` and `'y'` hints and panics (`none`) when the position is
out of range. Hints of any other kind impose no constraint. -/
def word_valid (word : List Char) : List Hint → Option Bool
  | [] => some true
  | h :: hs =>
    if h.kind == 'g' then
      match word[h.position]? with
      | none => none
      | some ch => if ch != h.letter then some false else word_valid word hs
    else if h.kind == 'y' then
      match word[h.position]? with
      | none => none
      | some ch =>
        if ch == h.letter || !(word.contains h.letter) then some false
        else word_valid word hs
    else if h.kind == 'b' then
      if word.contains h.letter then some false else word_valid word hs
    else
      word_valid word hs

/-- Embeds `narrow_guesses(words, hints)`: keeps, in order, the words whose
per-hint check succeeds. A panic while checking any word aborts the call. -/
def narrow_guesses : List (List Char) → List Hint → Option (List (List Char))
  | [], _ => some []
  | w :: ws, hints =>
    match word_valid w hints with
    | none => none
    | some true => (narrow_guesses ws hints).map (fun out => w :: out)
    | some false => narrow_guesses ws hints

/-- Embeds Rust's `str::split('\t')` on a line: splits into tab-separated
fields; a line with no tab yields the single field `[line]`, and the empty
line yields `[[]]`, exactly as in Rust. -/
def splitTab : List Char → List (List Char)
  | [] => [[]]
  | c :: rest =>
    if c == '\t' then [] :: splitTab rest
    else
      match splitTab rest with
      | [] => [[c]]
      | f :: fs => (c :: f) :: fs

/-- Embeds the per-line extraction of `parse_words`: `split.pop()` discards the
last field (the frequency), then `split.pop().unwrap()` takes the new last
field (the word); `none` models the `unwrap` panic when fewer than two fields
exist (a line with no tab). -/
def extract_word (l : List Char) : Option (List Char) :=
  ((splitTab l).dropLast).getLast?

/-- The modulus of Rust's `u64` arithmetic. -/
def u64Size : Nat := 2 ^ 64

/-- Line loop of `parse_words` with the running counter `c : u64` (a `Nat`
below `2 ^ 64`). Each 5-character word is pushed, then `c = c - 1` wraps
modulo `2 ^ 64` (release-mode semantics) and the loop breaks when `c == 0`.
`none` models the `unwrap` panic of the word extraction. -/
def parseWordsAux : List (List Char) → Nat → Option (List (List Char))
  | [], _ => some []
  | l :: rest, c =>
    match extract_word l with
    | none => none
    | some word =>
      if word.length ≠ 5 then parseWordsAux rest c
      else
        let c2 := (c + (u64Size - 1)) % u64Size
        if c2 = 0 then some [word]
        else (parseWordsAux rest c2).map (fun ws => word :: ws)

/-- Embeds `parse_words(words, count)` on the list of lines of the source
file (I/O errors aside: the file is given as its lines). -/
def parse_words (lines : List (List Char)) (count : Nat) : Option (List (List Char)) :=
  parseWordsAux lines count

/-- The word fields of the 5-character lines, in file order (the reference
value `parse_words` is compared against). -/
def fiveLetterWords (lines : List (List Char)) : List (List Char) :=
  lines.filterMap fun l =>
    (extract_word l).bind fun w => if w.length = 5 then some w else none

/-- Outcome of the `solve` loop. The two panic outcomes distinguish the
`possible_words.get(0).unwrap()` failure from every other panic
(`nth(...).unwrap()` inside `get_hints` or `narrow_guesses`). -/
inductive SolveResult where
  | won (guess : List Char) (turn : Nat)
  | turnLimit (turn : Nat)
  | exhausted (turn : Nat)
  | panicEmptyGuess
  | panicOther
deriving DecidableEq, Repr

/-- Embeds the `solve` loop from an arbitrary turn counter. Each iteration:
increment the turn, guess the first candidate (panic if none), compute hints
against the target, return on win, on the 6-turn limit, or on an empty
narrowed list, else loop on the narrowed list. -/
def solveAux (target : List Char) (words : List (List Char)) (turn : Nat) : SolveResult :=
  match words.head? with
  | none => .panicEmptyGuess
  | some guess =>
    match get_hints guess target with
    | none => .panicOther
    | some hints =>
      if is_winner hints then .won guess (turn + 1)
      else if turn + 1 ≥ 6 then .turnLimit (turn + 1)
      else
        match narrow_guesses words hints with
        | none => .panicOther
        | some ws2 =>
          if ws2.length = 0 then .exhausted (turn + 1)
          else solveAux target ws2 (turn + 1)
termination_by 6 - turn
decreasing_by omega

/-- Embeds `solve(words, target)`: the loop starts at `turn = 0` with the full
loaded list. -/
def solve (words : List (List Char)) (target : List Char) : SolveResult :=
  solveAux target words 0

/-- Outcome of the `play` loop. `outOfInput` records the state in which the
program blocks reading a further line of user input. -/
inductive PlayResult where
  | won (turn : Nat)
  | exhausted (turn : Nat)
  | outOfInput (turn : Nat) (words : List (List Char))
  | panicEmptyGuess
  | panicOther
deriving DecidableEq, Repr

/-- Embeds the hint-building loop of `play`: one `Hint` per character of the
user string, with `letter = guess.chars().nth(pos).unwrap()` (panic, `none`,
when the guess is shorter than the hint string). -/
def mkHints (guess : List Char) : List Char → Nat → Option (List Hint)
  | [], _ => some []
  | h :: hs, pos =>
    match guess[pos]? with
    | none => none
    | some c => (mkHints guess hs (pos + 1)).map (fun rest => ⟨c, pos, h⟩ :: rest)

/-- Embeds the `play` loop on a list of raw input lines (each as returned by
`read_line`, trailing newline included; `hint.pop()` is `dropLast`). Each
iteration: increment the turn, guess the first candidate (panic if none), read
a line; an input of popped length ≠ 5 undoes the increment and retries; the
literal `"ggggg"` wins; otherwise the hints built from the input narrow the
candidates, an empty result ends the game, else loop. -/
def playAux : List (List Char) → Nat → List (List Char) → PlayResult
  | words, turn, inputs =>
    match words.head? with
    | none => .panicEmptyGuess
    | some guess =>
      match inputs with
      | [] => .outOfInput (turn + 1) words
      | input :: rest =>
        let hint := input.dropLast
        if hint.length ≠ 5 then playAux words (turn + 1 - 1) rest
        else if hint = ['g', 'g', 'g', 'g', 'g'] then .won (turn + 1)
        else
          match mkHints guess hint 0 with
          | none => .panicOther
          | some hints =>
            match narrow_guesses words hints with
            | none => .panicOther
            | some ws2 =>
              if ws2.length = 0 then .exhausted (turn + 1)
              else playAux ws2 (turn + 1) rest

/-- Embeds `play(words)`: the loop starts at `turn = 0`. -/
def play (words : List (List Char)) (inputs : List (List Char)) : PlayResult :=
  playAux words 0 inputs

/-- Chains narrowing steps: the candidate list after the batches of hints
issued by the successive turns of a run. -/
def narrowAll (ws : List (List Char)) : List (List Hint) → Option (List (List Char))
  | [] => some ws
  | hs :: rest => (narrow_guesses ws hs).bind fun ws2 => narrowAll ws2 rest

/-- Rejection predicate of the specification (§4.2), stated over a word and a
single hint: Green and the letter at the position differs, or Yellow and (the
letter at the position matches, or the word misses the letter), or Black and
the word contains the letter. Out-of-range positions read the placeholder
`' '`. -/
def rejectsHint (w : List Char) (h : Hint) : Bool :=
  (h.kind == 'g' && !((w[h.position]?).getD ' ' == h.letter)) ||
  (h.kind == 'y' &&
    ((w[h.position]?).getD ' ' == h.letter || !(w.contains h.letter))) ||
  (h.kind == 'b' && w.contains h.letter)

/-! ## Helper lemmas -/

theorem word_valid_of_pos_lt (w : List Char) (hs : List Hint)
    (hyp : ∀ h ∈ hs, h.position < w.length) :
    word_valid w hs = some (hs.all fun h => ! rejectsHint w h) := by
  induction hs with
  | nil => rfl
  | cons h hs ih =>
    have hpos : h.position < w.length := hyp h (by simp)
    have hch : w[h.position]? = some w[h.position] := List.getElem?_eq_getElem hpos
    have ihh := ih fun x hx => hyp x (List.mem_cons_of_mem _ hx)
    by_cases hg : h.kind = 'g'
    · by_cases heq : w[h.position] = h.letter
      · simp [word_valid, hg, hch, heq, rejectsHint, ihh]
      · simp [word_valid, hg, hch, heq, rejectsHint, ihh]
    · by_cases hy : h.kind = 'y'
      · by_cases heq : w[h.position] = h.letter
        · simp [word_valid, hg, hy, hch, heq, rejectsHint, ihh]
        · by_cases hcont : h.letter ∈ w
          · simp [word_valid, hg, hy, hch, heq, hcont, rejectsHint, ihh]
          · simp [word_valid, hg, hy, hch, heq, hcont, rejectsHint, ihh]
      · by_cases hb : h.kind = 'b'
        · by_cases hcont : h.letter ∈ w
          · simp [word_valid, hg, hy, hb, hcont, rejectsHint, ihh]
          · simp [word_valid, hg, hy, hb, hcont, rejectsHint, ihh]
        · simp [word_valid, hg, hy, hb, rejectsHint, ihh]

theorem narrow_guesses_of_pos_lt (ws : List (List Char)) (hs : List Hint)
    (hyp : ∀ w ∈ ws, ∀ h ∈ hs, h.position < w.length) :
    narrow_guesses ws hs =
      some (ws.filter fun w => hs.all fun h => ! rejectsHint w h) := by
  induction ws with
  | nil => rfl
  | cons w ws ih =>
    have hv := word_valid_of_pos_lt w hs (hyp w (by simp))
    have ihh := ih fun x hx => hyp x (List.mem_cons_of_mem _ hx)
    by_cases hall : (hs.all fun h => ! rejectsHint w h) = true
    · simp [narrow_guesses, hv, hall, ihh, List.filter_cons]
    · simp only [Bool.not_eq_true] at hall
      simp [narrow_guesses, hv, hall, ihh, List.filter_cons]

theorem narrow_guesses_mem (ws : List (List Char)) (hs : List Hint)
    (out : List (List Char)) (hn : narrow_guesses ws hs = some out) :
    ∀ w ∈ out, w ∈ ws ∧ word_valid w hs = some true := by
  induction ws generalizing out with
  | nil =>
    simp only [narrow_guesses, Option.some.injEq] at hn
    subst hn
    simp
  | cons w ws ih =>
    simp only [narrow_guesses] at hn
    cases hv : word_valid w hs with
    | none => rw [hv] at hn; exact absurd hn (by simp)
    | some b =>
      rw [hv] at hn
      cases b with
      | true =>
        simp only [Option.map_eq_some'] at hn
        obtain ⟨out2, hout2, rfl⟩ := hn
        intro x hx
        rcases List.mem_cons.mp hx with rfl | hx2
        · exact ⟨List.mem_cons_self _ _, hv⟩
        · obtain ⟨h1, h2⟩ := ih out2 hout2 x hx2
          exact ⟨List.mem_cons_of_mem _ h1, h2⟩
      | false =>
        intro x hx
        obtain ⟨h1, h2⟩ := ih out hn x hx
        exact ⟨List.mem_cons_of_mem _ h1, h2⟩

theorem narrow_guesses_of_all_valid (ws : List (List Char)) (hs : List Hint)
    (hyp : ∀ w ∈ ws, word_valid w hs = some true) :
    narrow_guesses ws hs = some ws := by
  induction ws with
  | nil => rfl
  | cons w ws ih =>
    have hv := hyp w (by simp)
    have ihh := ih fun x hx => hyp x (List.mem_cons_of_mem _ hx)
    simp [narrow_guesses, hv, ihh]

theorem narrow_guesses_sublist (ws : List (List Char)) (hs : List Hint)
    (out : List (List Char)) (hn : narrow_guesses ws hs = some out) :
    List.Sublist out ws := by
  induction ws generalizing out with
  | nil =>
    simp only [narrow_guesses, Option.some.injEq] at hn
    subst hn
    exact List.Sublist.refl _
  | cons w ws ih =>
    simp only [narrow_guesses] at hn
    cases hv : word_valid w hs with
    | none => rw [hv] at hn; exact absurd hn (by simp)
    | some b =>
      rw [hv] at hn
      cases b with
      | true =>
        simp only [Option.map_eq_some'] at hn
        obtain ⟨out2, hout2, rfl⟩ := hn
        exact List.Sublist.cons₂ _ (ih out2 hout2)
      | false => exact List.Sublist.cons _ (ih out hn)

theorem get_hintsAux_spec (target : List Char) :
    ∀ (gs : List Char) (pos : Nat), pos + gs.length ≤ target.length →
    ∃ hs, get_hintsAux target gs pos = some hs ∧ hs.length = gs.length ∧
      ∀ i, i < gs.length →
        hs[i]? = some
          ⟨gs.getD i ' ', pos + i,
           if target.contains (gs.getD i ' ') = false then 'b'
           else if target.getD (pos + i) ' ' = gs.getD i ' ' then 'g' else 'y'⟩ := by
  intro gs
  induction gs with
  | nil =>
    intro pos _
    exact ⟨[], rfl, rfl, by simp⟩
  | cons c cs ih =>
    intro pos hle
    have hpos : pos < target.length := by simp at hle; omega
    have hch : target[pos]? = some target[pos] := List.getElem?_eq_getElem hpos
    have hgetD : target.getD pos ' ' = target[pos] := by
      rw [List.getD_eq_getElem?_getD, hch]; rfl
    obtain ⟨hs2, h1, h2, h3⟩ := ih (pos + 1) (by simp at hle ⊢; omega)
    refine ⟨⟨c, pos,
      if target.contains c = false then 'b'
      else if target.getD pos ' ' = c then 'g' else 'y'⟩ :: hs2, ?_, by simp [h2], ?_⟩
    · by_cases hc : c ∈ target
      · simp [get_hintsAux, hc, hch, h1, hgetD]
      · simp [get_hintsAux, hc, h1]
    · intro i hi
      match i with
      | 0 => simp
      | i + 1 =>
        have := h3 i (by simpa using hi)
        simpa [Nat.add_comm, Nat.add_left_comm, Nat.add_assoc] using this

theorem get_hintsAux_pos_lt (target : List Char) :
    ∀ (gs : List Char) (pos : Nat) (hs : List Hint),
      get_hintsAux target gs pos = some hs →
      ∀ h ∈ hs, h.position < pos + gs.length := by
  intro gs
  induction gs with
  | nil =>
    intro pos hs hh
    simp only [get_hintsAux, Option.some.injEq] at hh
    subst hh
    simp
  | cons c cs ih =>
    intro pos hs hh
    by_cases hc : c ∈ target
    · cases hp : target[pos]? with
      | none => simp [get_hintsAux, hc, hp] at hh
      | some t =>
        simp only [get_hintsAux, hp] at hh
        rw [if_pos (by simpa using hc)] at hh
        simp only [Option.map_eq_some'] at hh
        obtain ⟨hs2, hrec, rfl⟩ := hh
        intro h hmem
        rcases List.mem_cons.mp hmem with rfl | hmem2
        · simp
        · have := ih (pos + 1) hs2 hrec h hmem2
          simp at this ⊢; omega
    · simp only [get_hintsAux] at hh
      rw [if_neg (by simpa using hc)] at hh
      simp only [Option.map_eq_some'] at hh
      obtain ⟨hs2, hrec, rfl⟩ := hh
      intro h hmem
      rcases List.mem_cons.mp hmem with rfl | hmem2
      · simp
      · have := ih (pos + 1) hs2 hrec h hmem2
        simp at this ⊢; omega

theorem splitTab_ne_nil : ∀ l : List Char, splitTab l ≠ [] := by
  intro l
  cases l with
  | nil => simp [splitTab]
  | cons c rest =>
    simp only [splitTab]
    split
    · simp
    · split <;> simp

theorem two_le_splitTab_length : ∀ l : List Char, '\t' ∈ l → 2 ≤ (splitTab l).length := by
  intro l
  induction l with
  | nil => simp
  | cons c rest ih =>
    intro hmem
    by_cases hc : c = '\t'
    · subst hc
      simp only [splitTab]
      rw [if_pos (by decide)]
      have h1 : 1 ≤ (splitTab rest).length :=
        List.length_pos.mpr (splitTab_ne_nil rest)
      simp only [List.length_cons]
      omega
    · have hmem2 : '\t' ∈ rest := by
        rcases List.mem_cons.mp hmem with h | h
        · exact absurd h.symm hc
        · exact h
      have h2 := ih hmem2
      simp only [splitTab]
      rw [if_neg (by simpa using hc)]
      cases hsp : splitTab rest with
      | nil => exact absurd hsp (splitTab_ne_nil rest)
      | cons f fs =>
        simp only [hsp, List.length_cons] at h2 ⊢
        omega

theorem splitTab_of_no_tab : ∀ l : List Char, '\t' ∉ l → splitTab l = [l] := by
  intro l
  induction l with
  | nil => intro; rfl
  | cons c rest ih =>
    intro hmem
    have hc : ¬c = '\t' := fun h => hmem (by simp [h])
    have hrest : '\t' ∉ rest := fun h => hmem (List.mem_cons_of_mem _ h)
    simp only [splitTab]
    rw [if_neg (by simpa using hc), ih hrest]

theorem extract_word_isSome_of_tab (l : List Char) (h : '\t' ∈ l) :
    ∃ w, extract_word l = some w := by
  have h2 := two_le_splitTab_length l h
  have hlen : (splitTab l).dropLast.length = (splitTab l).length - 1 :=
    List.length_dropLast _
  have hne : (splitTab l).dropLast ≠ [] := by
    intro hnil
    rw [hnil] at hlen
    simp at hlen
    omega
  have hsome := List.getLast?_isSome.mpr hne
  obtain ⟨w, hw⟩ := Option.isSome_iff_exists.mp hsome
  exact ⟨w, hw⟩

theorem extract_word_none_of_no_tab (l : List Char) (h : '\t' ∉ l) :
    extract_word l = none := by
  rw [extract_word, splitTab_of_no_tab l h]
  rfl

theorem u64_pred (c : Nat) (h1 : 1 ≤ c) (h2 : c < u64Size) :
    (c + (u64Size - 1)) % u64Size = c - 1 := by
  have hpow : u64Size = 18446744073709551616 := by norm_num [u64Size]
  rw [hpow]
  rw [hpow] at h2
  omega

theorem parseWordsAux_eq_take (lines : List (List Char)) :
    ∀ c : Nat, 1 ≤ c → c < u64Size → (∀ l ∈ lines, '\t' ∈ l) →
    parseWordsAux lines c = some ((fiveLetterWords lines).take c) := by
  induction lines with
  | nil =>
    intro c _ _ _
    simp [parseWordsAux, fiveLetterWords]
  | cons l rest ih =>
    intro c h1 h2 htab
    obtain ⟨w, hw⟩ := extract_word_isSome_of_tab l (htab l (by simp))
    by_cases h5 : w.length = 5
    · have hdec : (c + (u64Size - 1)) % u64Size = c - 1 := u64_pred c h1 h2
      by_cases hc1 : c = 1
      · subst hc1
        simp [parseWordsAux, hw, h5, hdec, fiveLetterWords]
      · have hrec := ih (c - 1) (by omega) (by omega)
          (fun x hx => htab x (List.mem_cons_of_mem _ hx))
        have hc1' : ¬c - 1 = 0 := by omega
        simp only [parseWordsAux, hw, h5, hdec, fiveLetterWords, ne_eq,
          not_true_eq_false, if_false, hc1', hrec, Option.map_some',
          List.filterMap_cons, Option.some_bind, if_pos h5]
        rw [show c = (c - 1) + 1 by omega]
        simp [fiveLetterWords]
    · have hrec := ih c h1 h2 (fun x hx => htab x (List.mem_cons_of_mem _ hx))
      simp [parseWordsAux, hw, h5, hrec, fiveLetterWords]

theorem parseWordsAux_isSome_of_tabs (lines : List (List Char)) :
    ∀ c : Nat, (∀ l ∈ lines, '\t' ∈ l) →
    ∃ ws, parseWordsAux lines c = some ws := by
  induction lines with
  | nil => intro c _; exact ⟨[], rfl⟩
  | cons l rest ih =>
    intro c htab
    obtain ⟨w, hw⟩ := extract_word_isSome_of_tab l (htab l (by simp))
    by_cases h5 : w.length = 5
    · by_cases hz : (c + (u64Size - 1)) % u64Size = 0
      · exact ⟨[w], by simp [parseWordsAux, hw, h5, hz]⟩
      · obtain ⟨ws, hws⟩ := ih ((c + (u64Size - 1)) % u64Size)
          (fun x hx => htab x (List.mem_cons_of_mem _ hx))
        exact ⟨w :: ws, by simp [parseWordsAux, hw, h5, hz, hws]⟩
    · obtain ⟨ws, hws⟩ := ih c (fun x hx => htab x (List.mem_cons_of_mem _ hx))
      exact ⟨ws, by simp [parseWordsAux, hw, h5, hws]⟩

theorem head?_mem {α : Type} {l : List α} {a : α} (h : l.head? = some a) : a ∈ l := by
  cases l with
  | nil => simp at h
  | cons b t =>
    simp only [List.head?_cons, Option.some.injEq] at h
    subst h
    simp

theorem get_hints_of_len (guess target : List Char) (hg : guess.length = 5)
    (ht : target.length = 5) :
    ∃ hs, get_hints guess target = some hs ∧ ∀ h ∈ hs, h.position < 5 := by
  obtain ⟨hs, h1, _, _⟩ := get_hintsAux_spec target guess 0 (by omega)
  refine ⟨hs, h1, ?_⟩
  have := get_hintsAux_pos_lt target guess 0 hs h1
  intro h hm
  have := this h hm
  omega

theorem solveAux_classify (target : List Char) (ws : List (List Char)) (turn : Nat) :
    turn ≤ 5 → ws ≠ [] → (∀ w ∈ ws, w.length = 5) → target.length = 5 →
    (∃ g t, solveAux target ws turn = SolveResult.won g t ∧ t ≤ 6) ∨
    (∃ t, solveAux target ws turn = SolveResult.turnLimit t ∧ t ≤ 6) ∨
    (∃ t, solveAux target ws turn = SolveResult.exhausted t ∧ t ≤ 6) := by
  induction ws, turn using solveAux.induct target with
  | case1 words turn hhead =>
    intro _ hne _ _
    exact absurd (List.head?_eq_none_iff.mp hhead) hne
  | case2 words turn word hhead hgh =>
    intro _ _ hlen ht
    obtain ⟨hs, h1, _⟩ :=
      get_hints_of_len word target (hlen word (head?_mem hhead)) ht
    rw [h1] at hgh
    exact absurd hgh (by simp)
  | case3 words turn word hhead hints hgh hwin =>
    intro h5 _ _ _
    left
    refine ⟨word, turn + 1, ?_, by omega⟩
    rw [solveAux]
    simp [hhead, hgh, hwin]
  | case4 words turn word hhead hints hgh hwin h6 =>
    intro h5 _ _ _
    right; left
    refine ⟨turn + 1, ?_, by omega⟩
    rw [solveAux]
    simp [hhead, hgh, hwin, h6]
  | case5 words turn word hhead hints hgh hwin h6 hnw =>
    intro _ _ hlen ht
    exfalso
    obtain ⟨hs, h1, hpos⟩ :=
      get_hints_of_len word target (hlen word (head?_mem hhead)) ht
    rw [h1] at hgh
    obtain rfl : hs = hints := by simpa using hgh
    have hnw2 := narrow_guesses_of_pos_lt words hs
      (fun w hw h hm => by rw [hlen w hw]; exact hpos h hm)
    rw [hnw2] at hnw
    exact absurd hnw (by simp)
  | case6 words turn word hhead hints hgh hwin h6 ws2 hnw hz =>
    intro h5 _ _ _
    right; right
    refine ⟨turn + 1, ?_, by omega⟩
    rw [solveAux]
    simp [hhead, hgh, hwin, h6, hnw, hz]
  | case7 words turn word hhead hints hgh hwin h6 ws2 hnw hz ih =>
    intro h5 _ hlen ht
    have hstep : solveAux target words turn = solveAux target ws2 (turn + 1) := by
      rw [solveAux]
      simp [hhead, hgh, hwin, h6, hnw, hz]
    rw [hstep]
    refine ih (by omega) ?_ ?_ ht
    · intro hnil
      rw [hnil] at hz
      simp at hz
    · intro w hw
      have hsub := narrow_guesses_sublist words hints ws2 hnw
      exact hlen w (hsub.subset hw)

theorem solveAux_ne_panicEmpty (target : List Char) (ws : List (List Char)) (turn : Nat) :
    ws ≠ [] → solveAux target ws turn ≠ SolveResult.panicEmptyGuess := by
  induction ws, turn using solveAux.induct target with
  | case1 words turn hhead =>
    intro hne _
    exact hne (List.head?_eq_none_iff.mp hhead)
  | case2 words turn word hhead hgh =>
    intro _
    rw [solveAux]
    simp [hhead, hgh]
  | case3 words turn word hhead hints hgh hwin =>
    intro _
    rw [solveAux]
    simp [hhead, hgh, hwin]
  | case4 words turn word hhead hints hgh hwin h6 =>
    intro _
    rw [solveAux]
    simp [hhead, hgh, hwin, h6]
  | case5 words turn word hhead hints hgh hwin h6 hnw =>
    intro _
    rw [solveAux]
    simp [hhead, hgh, hwin, h6, hnw]
  | case6 words turn word hhead hints hgh hwin h6 ws2 hnw hz =>
    intro _
    rw [solveAux]
    simp [hhead, hgh, hwin, h6, hnw, hz]
  | case7 words turn word hhead hints hgh hwin h6 ws2 hnw hz ih =>
    intro _
    have hstep : solveAux target words turn = solveAux target ws2 (turn + 1) := by
      rw [solveAux]
      simp [hhead, hgh, hwin, h6, hnw, hz]
    rw [hstep]
    refine ih ?_
    intro hnil
    rw [hnil] at hz
    simp at hz

theorem playAux_ne_panicEmpty :
    ∀ (inputs ws : List (List Char)) (turn : Nat),
    ws ≠ [] → playAux ws turn inputs ≠ PlayResult.panicEmptyGuess := by
  intro inputs
  induction inputs with
  | nil =>
    intro ws turn hne
    cases ws with
    | nil => exact absurd rfl hne
    | cons w tail =>
      rw [playAux]
      simp
  | cons input rest ih =>
    intro ws turn hne
    cases ws with
    | nil => exact absurd rfl hne
    | cons w tail =>
      by_cases hlen : (input.dropLast).length = 5
      · by_cases hg : input.dropLast = ['g', 'g', 'g', 'g', 'g']
        · have hst : playAux (w :: tail) turn (input :: rest) =
              PlayResult.won (turn + 1) := by
            rw [playAux]
            simp [hlen, hg]
          rw [hst]
          simp
        · cases hmk : mkHints w input.dropLast 0 with
          | none =>
            have hst : playAux (w :: tail) turn (input :: rest) =
                PlayResult.panicOther := by
              rw [playAux]
              simp [hlen, hg, hmk]
            rw [hst]
            simp
          | some hints =>
            cases hnw : narrow_guesses (w :: tail) hints with
            | none =>
              have hst : playAux (w :: tail) turn (input :: rest) =
                  PlayResult.panicOther := by
                rw [playAux]
                simp [hlen, hg, hmk, hnw]
              rw [hst]
              simp
            | some ws2 =>
              by_cases hz : ws2.length = 0
              · have hst : playAux (w :: tail) turn (input :: rest) =
                    PlayResult.exhausted (turn + 1) := by
                  rw [playAux]
                  simp [hlen, hg, hmk, hnw, hz]
                rw [hst]
                simp
              · have hst : playAux (w :: tail) turn (input :: rest) =
                    playAux ws2 (turn + 1) rest := by
                  rw [playAux]
                  simp [hlen, hg, hmk, hnw, hz]
                rw [hst]
                refine ih ws2 (turn + 1) ?_
                intro hnil
                rw [hnil] at hz
                simp at hz
      · have hst : playAux (w :: tail) turn (input :: rest) =
            playAux (w :: tail) (turn + 1 - 1) rest := by
          rw [playAux]
          simp [hlen]
          intro h
          exact absurd (by simp [List.length_dropLast, h]) hlen
        rw [hst]
        exact ih (w :: tail) (turn + 1 - 1) (by simp)

/-! ## Claims -/

/-- C1: For every 5-letter guess and 5-letter target, `get_hints` returns
exactly one hint per guess position, in guess order; the hint at position `i`
carries the guess letter and position `i`, and its kind is Black when the
letter occurs nowhere in the target, Green when the target letter at `i`
equals it, and Yellow otherwise — simple containment, with no count-aware
duplicate-letter matching. -/
theorem claim_get_hints_positional (guess target : List Char)
    (hg : guess.length = 5) (ht : target.length = 5) :
    ∃ hs, get_hints guess target = some hs ∧ hs.length = 5 ∧
      ∀ i, i < 5 → hs[i]? = some
        ⟨guess.getD i ' ', i,
         if target.contains (guess.getD i ' ') = false then 'b'
         else if target.getD i ' ' = guess.getD i ' ' then 'g' else 'y'⟩ := by
  obtain ⟨hs, h1, h2, h3⟩ := get_hintsAux_spec target guess 0 (by omega)
  refine ⟨hs, h1, by rw [h2, hg], ?_⟩
  intro i hi
  have := h3 i (by omega)
  simpa using this

/-- Witness for C1: guess `"stone"` against target `"crane"`. -/
theorem claim_get_hints_positional_witness :
    (['s', 't', 'o', 'n', 'e'] : List Char).length = 5 ∧
    (['c', 'r', 'a', 'n', 'e'] : List Char).length = 5 ∧
    (∃ hs, get_hints ['s', 't', 'o', 'n', 'e'] ['c', 'r', 'a', 'n', 'e'] = some hs ∧
      hs.length = 5 ∧
      ∀ i, i < 5 → hs[i]? = some
        ⟨(['s', 't', 'o', 'n', 'e'] : List Char).getD i ' ', i,
         if (['c', 'r', 'a', 'n', 'e'] : List Char).contains
              ((['s', 't', 'o', 'n', 'e'] : List Char).getD i ' ') = false then 'b'
         else if (['c', 'r', 'a', 'n', 'e'] : List Char).getD i ' ' =
              (['s', 't', 'o', 'n', 'e'] : List Char).getD i ' ' then 'g' else 'y'⟩) :=
  ⟨by decide, by decide,
   claim_get_hints_positional ['s', 't', 'o', 'n', 'e'] ['c', 'r', 'a', 'n', 'e']
     (by decide) (by decide)⟩

/-- C2: On every candidate list of 5-letter words and every hint sequence with
positions below 5 (the data model of the spec), `narrow_guesses` returns
exactly the stable filter of the input by the conjunction of the per-hint
rejection conditions: Green and the letter at the position differs, Yellow and
(the letter at the position matches or the word misses the letter), Black and
the word contains the letter. -/
theorem claim_narrow_guesses_exact_filter (ws : List (List Char)) (hs : List Hint)
    (hw : ∀ w ∈ ws, w.length = 5) (hh : ∀ h ∈ hs, h.position < 5) :
    narrow_guesses ws hs =
      some (ws.filter fun w => hs.all fun h => ! rejectsHint w h) :=
  narrow_guesses_of_pos_lt ws hs fun w hmem h hm => by
    rw [hw w hmem]; exact hh h hm

/-- Witness for C2: the spec example — candidates `["crane","grape","stone"]`
with the single hint Green `'c'` at position 0 narrow to `["crane"]`. -/
theorem claim_narrow_guesses_exact_filter_witness :
    (∀ w ∈ [['c', 'r', 'a', 'n', 'e'], ['g', 'r', 'a', 'p', 'e'],
            ['s', 't', 'o', 'n', 'e']], List.length w = 5) ∧
    (∀ h ∈ [(⟨'c', 0, 'g'⟩ : Hint)], Hint.position h < 5) ∧
    narrow_guesses
        [['c', 'r', 'a', 'n', 'e'], ['g', 'r', 'a', 'p', 'e'], ['s', 't', 'o', 'n', 'e']]
        [(⟨'c', 0, 'g'⟩ : Hint)] =
      some (List.filter
        (fun w => List.all [(⟨'c', 0, 'g'⟩ : Hint)] fun h => ! rejectsHint w h)
        [['c', 'r', 'a', 'n', 'e'], ['g', 'r', 'a', 'p', 'e'], ['s', 't', 'o', 'n', 'e']]) ∧
    List.filter
        (fun w => List.all [(⟨'c', 0, 'g'⟩ : Hint)] fun h => ! rejectsHint w h)
        [['c', 'r', 'a', 'n', 'e'], ['g', 'r', 'a', 'p', 'e'], ['s', 't', 'o', 'n', 'e']] =
      [['c', 'r', 'a', 'n', 'e']] :=
  ⟨by decide, by decide,
   claim_narrow_guesses_exact_filter _ _ (by decide) (by decide), by decide⟩

/-- C3 (amended): for a source file whose every line contains a tab and every
count with `1 ≤ count < 2^64`, `parse_words` returns exactly the first
`count` five-letter word fields in file order — in particular never more than
`count` words. (As stated over every count the claim fails at `count = 0`:
the `u64` decrement after the first push wraps around, see the
counterexample.) -/
theorem claim_parse_words_capped (lines : List (List Char)) (count : Nat)
    (htab : ∀ l ∈ lines, '\t' ∈ l) (h1 : 1 ≤ count) (h2 : count < u64Size) :
    parse_words lines count = some ((fiveLetterWords lines).take count) :=
  parseWordsAux_eq_take lines count h1 h2 htab

/-- Witness for C3: three tab-separated lines, of which the 3-letter `"cat"`
is skipped, capped at 2. -/
theorem claim_parse_words_capped_witness :
    (∀ l ∈ [['a', 'p', 'p', 'l', 'e', '\t', '1'], ['c', 'a', 't', '\t', '2'],
            ['s', 't', 'o', 'n', 'e', '\t', '3'], ['c', 'r', 'a', 'n', 'e', '\t', '4']],
       '\t' ∈ l) ∧
    1 ≤ 2 ∧ 2 < u64Size ∧
    parse_words
        [['a', 'p', 'p', 'l', 'e', '\t', '1'], ['c', 'a', 't', '\t', '2'],
         ['s', 't', 'o', 'n', 'e', '\t', '3'], ['c', 'r', 'a', 'n', 'e', '\t', '4']] 2 =
      some ((fiveLetterWords
        [['a', 'p', 'p', 'l', 'e', '\t', '1'], ['c', 'a', 't', '\t', '2'],
         ['s', 't', 'o', 'n', 'e', '\t', '3'], ['c', 'r', 'a', 'n', 'e', '\t', '4']]).take 2) ∧
    (fiveLetterWords
        [['a', 'p', 'p', 'l', 'e', '\t', '1'], ['c', 'a', 't', '\t', '2'],
         ['s', 't', 'o', 'n', 'e', '\t', '3'], ['c', 'r', 'a', 'n', 'e', '\t', '4']]).take 2 =
      [['a', 'p', 'p', 'l', 'e'], ['s', 't', 'o', 'n', 'e']] :=
  ⟨by decide, by decide, by decide,
   claim_parse_words_capped _ 2 (by decide) (by decide) (by decide), by decide⟩

/-- Counterexample to C3 as stated: with `count = 0` and a two-line file of
five-letter words, `parse_words` returns 2 words — more than `count` — because
the `u64` counter is decremented only after the first push and `0 - 1` wraps
to `2^64 - 1`. -/
theorem claim_parse_words_count_zero_counterexample :
    parse_words [['a', 'p', 'p', 'l', 'e', '\t', '1'],
                 ['s', 't', 'o', 'n', 'e', '\t', '2']] 0 =
      some [['a', 'p', 'p', 'l', 'e'], ['s', 't', 'o', 'n', 'e']] ∧
    ¬([['a', 'p', 'p', 'l', 'e'], ['s', 't', 'o', 'n', 'e']].length ≤ 0) :=
  ⟨by decide, by decide⟩

/-- C4: after any chain of narrowing steps, every word still in the candidate
list comes from the initial list and passes the per-hint check of every batch
of hints issued so far — the filtering is conjunctive and never relaxed. -/
theorem claim_candidates_consistent (ws out : List (List Char))
    (batches : List (List Hint)) (h : narrowAll ws batches = some out) :
    ∀ w ∈ out, w ∈ ws ∧ ∀ hs ∈ batches, word_valid w hs = some true := by
  induction batches generalizing ws with
  | nil =>
    simp only [narrowAll, Option.some.injEq] at h
    subst h
    intro w hw
    exact ⟨hw, by simp⟩
  | cons hs rest ih =>
    simp only [narrowAll, Option.bind_eq_some] at h
    obtain ⟨ws2, hn, hrest⟩ := h
    intro w hw
    have h2 := ih ws2 hrest w hw
    have h3 := narrow_guesses_mem ws hs ws2 hn w h2.1
    refine ⟨h3.1, fun hs2 hmem => ?_⟩
    rcases List.mem_cons.mp hmem with rfl | hm
    · exact h3.2
    · exact h2.2 hs2 hm

/-- Witness for C4: two narrowing turns starting from
`["crane","grape","stone"]`. -/
theorem claim_candidates_consistent_witness :
    (['g', 'r', 'a', 'p', 'e'] : List Char) ∈
      [['c', 'r', 'a', 'n', 'e'], ['g', 'r', 'a', 'p', 'e'], ['s', 't', 'o', 'n', 'e']] ∧
    (∀ hs ∈ [[(⟨'e', 4, 'g'⟩ : Hint)], [(⟨'c', 0, 'b'⟩ : Hint)]],
      word_valid ['g', 'r', 'a', 'p', 'e'] hs = some true) :=
  claim_candidates_consistent
    [['c', 'r', 'a', 'n', 'e'], ['g', 'r', 'a', 'p', 'e'], ['s', 't', 'o', 'n', 'e']]
    [['g', 'r', 'a', 'p', 'e'], ['s', 't', 'o', 'n', 'e']]
    [[(⟨'e', 4, 'g'⟩ : Hint)], [(⟨'c', 0, 'b'⟩ : Hint)]] (by decide)
    ['g', 'r', 'a', 'p', 'e'] (by decide)

/-- C5: for every non-empty initial candidate list of 5-letter words and every
5-letter target, the `solve` loop terminates without panicking in one of the
three terminal states — Won, TurnLimitReached or Exhausted — and the turn it
terminates on is at most 6. -/
theorem claim_solve_terminal_within_six (ws : List (List Char)) (target : List Char)
    (hne : ws ≠ []) (hlen : ∀ w ∈ ws, w.length = 5) (ht : target.length = 5) :
    (∃ g t, solve ws target = SolveResult.won g t ∧ t ≤ 6) ∨
    (∃ t, solve ws target = SolveResult.turnLimit t ∧ t ≤ 6) ∨
    (∃ t, solve ws target = SolveResult.exhausted t ∧ t ≤ 6) :=
  solveAux_classify target ws 0 (by omega) hne hlen ht

/-- Witness for C5: solving for `"crane"` from `["stone","crane"]`. -/
theorem claim_solve_terminal_within_six_witness :
    ([['s', 't', 'o', 'n', 'e'], ['c', 'r', 'a', 'n', 'e']] : List (List Char)) ≠ [] ∧
    (∀ w ∈ [['s', 't', 'o', 'n', 'e'], ['c', 'r', 'a', 'n', 'e']], List.length w = 5) ∧
    ((∃ g t, solve [['s', 't', 'o', 'n', 'e'], ['c', 'r', 'a', 'n', 'e']]
        ['c', 'r', 'a', 'n', 'e'] = SolveResult.won g t ∧ t ≤ 6) ∨
     (∃ t, solve [['s', 't', 'o', 'n', 'e'], ['c', 'r', 'a', 'n', 'e']]
        ['c', 'r', 'a', 'n', 'e'] = SolveResult.turnLimit t ∧ t ≤ 6) ∨
     (∃ t, solve [['s', 't', 'o', 'n', 'e'], ['c', 'r', 'a', 'n', 'e']]
        ['c', 'r', 'a', 'n', 'e'] = SolveResult.exhausted t ∧ t ≤ 6)) :=
  ⟨by decide, by decide,
   claim_solve_terminal_within_six
     [['s', 't', 'o', 'n', 'e'], ['c', 'r', 'a', 'n', 'e']] ['c', 'r', 'a', 'n', 'e']
     (by decide) (by decide) (by decide)⟩

/-- C6: narrowing is idempotent — feeding the output of `narrow_guesses` back
into `narrow_guesses` with the same hints returns it unchanged. -/
theorem claim_narrow_guesses_idempotent (ws : List (List Char)) (hs : List Hint) :
    (narrow_guesses ws hs).bind (fun out => narrow_guesses out hs) =
      narrow_guesses ws hs := by
  cases hn : narrow_guesses ws hs with
  | none => simp [hn]
  | some out =>
    simp only [hn, Option.some_bind]
    exact narrow_guesses_of_all_valid out hs fun w hw =>
      (narrow_guesses_mem ws hs out hn w hw).2

/-- C7: narrowing never grows the candidate list — the output of
`narrow_guesses` is at most as long as the input, and is a sublist of it
(same relative order, no re-sort). -/
theorem claim_narrow_guesses_shrinks (ws : List (List Char)) (hs : List Hint)
    (out : List (List Char)) (h : narrow_guesses ws hs = some out) :
    out.length ≤ ws.length ∧ List.Sublist out ws :=
  ⟨(narrow_guesses_sublist ws hs out h).length_le,
   narrow_guesses_sublist ws hs out h⟩

/-- Witness for C7: the spec example narrows 3 candidates to 1. -/
theorem claim_narrow_guesses_shrinks_witness :
    ([['c', 'r', 'a', 'n', 'e']] : List (List Char)).length ≤
      ([['c', 'r', 'a', 'n', 'e'], ['g', 'r', 'a', 'p', 'e'],
        ['s', 't', 'o', 'n', 'e']] : List (List Char)).length ∧
    List.Sublist [['c', 'r', 'a', 'n', 'e']]
      [['c', 'r', 'a', 'n', 'e'], ['g', 'r', 'a', 'p', 'e'], ['s', 't', 'o', 'n', 'e']] :=
  claim_narrow_guesses_shrinks
    [['c', 'r', 'a', 'n', 'e'], ['g', 'r', 'a', 'p', 'e'], ['s', 't', 'o', 'n', 'e']]
    [(⟨'c', 0, 'g'⟩ : Hint)] [['c', 'r', 'a', 'n', 'e']] (by decide)

/-- C8: in interactive mode an input line whose hint string (after the
trailing-newline pop) is not exactly 5 characters long is rejected: the run
continues on the remaining inputs with the same turn counter and the same
candidate list, exactly as if the invalid line had never been read. -/
theorem claim_play_invalid_input_retry (words : List (List Char)) (turn : Nat)
    (input : List Char) (rest : List (List Char))
    (hlen : (input.dropLast).length ≠ 5) :
    playAux words turn (input :: rest) = playAux words turn rest := by
  cases words with
  | nil =>
    rw [playAux, playAux]
    simp
  | cons w tail =>
    have hst : playAux (w :: tail) turn (input :: rest) =
        playAux (w :: tail) (turn + 1 - 1) rest := by
      rw [playAux]
      simp [hlen]
      intro h
      exact absurd (by simp [List.length_dropLast, h]) hlen
    rw [hst]
    simp

/-- Witness for C8: the spec example — typing `"gggg"` (then Enter) is
rejected and the run proceeds unchanged. -/
theorem claim_play_invalid_input_retry_witness :
    ((['g', 'g', 'g', 'g', '\n'] : List Char).dropLast).length ≠ 5 ∧
    playAux [['c', 'r', 'a', 'n', 'e']] 0
        (['g', 'g', 'g', 'g', '\n'] :: [['g', 'g', 'g', 'g', 'g', '\n']]) =
      playAux [['c', 'r', 'a', 'n', 'e']] 0 [['g', 'g', 'g', 'g', 'g', '\n']] :=
  ⟨by decide,
   claim_play_invalid_input_retry [['c', 'r', 'a', 'n', 'e']] 0
     ['g', 'g', 'g', 'g', '\n'] [['g', 'g', 'g', 'g', 'g', '\n']] (by decide)⟩

/-- C9: with a non-empty candidate list, neither the solver loop nor the
interactive loop ever fails the unchecked `possible_words.get(0).unwrap()` —
at any turn counter — while with an empty initial list both `solve` and
`play` hit exactly that panic on the first turn. -/
theorem claim_first_guess_never_empty (target : List Char) (ws : List (List Char))
    (turn : Nat) (inputs : List (List Char)) :
    (ws ≠ [] →
      solveAux target ws turn ≠ SolveResult.panicEmptyGuess ∧
      playAux ws turn inputs ≠ PlayResult.panicEmptyGuess) ∧
    solve [] target = SolveResult.panicEmptyGuess ∧
    play [] inputs = PlayResult.panicEmptyGuess := by
  refine ⟨fun hne => ⟨solveAux_ne_panicEmpty target ws turn hne,
    playAux_ne_panicEmpty inputs ws turn hne⟩, ?_, ?_⟩
  · rw [solve, solveAux]
    rfl
  · rw [play, playAux]
    rfl

/-- Witness for C9: a singleton candidate list is safe at turn 0. -/
theorem claim_first_guess_never_empty_witness :
    solveAux ['c', 'r', 'a', 'n', 'e'] [['s', 't', 'o', 'n', 'e']] 0 ≠
      SolveResult.panicEmptyGuess ∧
    playAux [['s', 't', 'o', 'n', 'e']] 0 [] ≠ PlayResult.panicEmptyGuess :=
  (claim_first_guess_never_empty ['c', 'r', 'a', 'n', 'e'] [['s', 't', 'o', 'n', 'e']]
    0 []).1 (by decide)

/-- C10: the per-line word extraction of `parse_words` is safe exactly under
the precondition that lines contain a tab: if every line of the file has one,
parsing returns a result and each line's extraction succeeds; a line with no
tab (an empty line included) reached by the loop makes `parse_words` panic
(`none`) instead of returning an I/O error. -/
theorem claim_extract_word_tab_precondition (lines : List (List Char)) (count : Nat)
    (l : List Char) (rest : List (List Char)) :
    ((∀ x ∈ lines, '\t' ∈ x) → ∃ ws, parse_words lines count = some ws) ∧
    ('\t' ∈ l → ∃ w, extract_word l = some w) ∧
    ('\t' ∉ l → extract_word l = none ∧ parse_words (l :: rest) count = none) := by
  refine ⟨fun htab => parseWordsAux_isSome_of_tabs lines count htab,
    fun ht => extract_word_isSome_of_tab l ht,
    fun hnt => ?_⟩
  have hn := extract_word_none_of_no_tab l hnt
  exact ⟨hn, by simp [parse_words, parseWordsAux, hn]⟩

/-- Witness for C10: a tabbed file parses; the tab-less line `"x"` (and the
file starting with it) panics. -/
theorem claim_extract_word_tab_precondition_witness :
    (∃ ws, parse_words [['a', '\t', '1']] 3 = some ws) ∧
    (∃ w, extract_word ['a', '\t', '1'] = some w) ∧
    (extract_word ['x'] = none ∧ parse_words [['x']] 3 = none) :=
  ⟨(claim_extract_word_tab_precondition [['a', '\t', '1']] 3 ['x'] []).1 (by decide),
   (claim_extract_word_tab_precondition [] 3 ['a', '\t', '1'] []).2.1 (by decide),
   (claim_extract_word_tab_precondition [] 3 ['x'] []).2.2 (by decide)⟩

end WordleSolver
